import Mathlib

/-!
Verification of the patch-manager program `spm.py`: a shallow embedding of its
manifest parser (`get_patch_info`), its patch-author extractor
(`get_patch_authors`), and its apply engine (`apply_patches`), together with
theorems settling the specification claims about them.
-/

namespace Spm

/-- Strings are modelled as lists of Unicode scalar values, matching Python `str`. -/
abbrev Str := List Char

/-- Convenience to write string constants of the model. -/
def strLit (s : String) : Str := s.toList

/-- ASCII whitespace, as stripped by Python `str.strip` and matched by the `\s`
regex class.  (Python additionally treats some rare non-ASCII whitespace the
same way; no manifest line in question contains any.) -/
def isPySpace (c : Char) : Bool :=
  c == ' ' || c == '\t' || c == '\n' || c == '\r' || c == '\x0b' || c == '\x0c'

/-- Character class of the setting key in the manifest regex: lowercase ASCII
letters and the hyphen. -/
def isKeyChar (c : Char) : Bool := c.isLower || c == '-'

/-- ASCII fragment of the regex class `\w`: letters, digits, underscore.
(Python `\w` also accepts non-ASCII word characters; the manifests the claims
are about are ASCII.) -/
def isWordChar (c : Char) : Bool := c.isAlphanum || c == '_'

/-- Character class of the setting value in the manifest regex: word
characters, hyphens and dots. -/
def isValueChar (c : Char) : Bool := isWordChar c || c == '-' || c == '.'

/-- Python `str.rstrip()`. -/
def rstripStr (l : Str) : Str := (l.reverse.dropWhile isPySpace).reverse

/-- Python `str.strip()`. -/
def stripStr (l : Str) : Str := rstripStr (l.dropWhile isPySpace)

/-- `l` starts with the single character `c`. -/
def startsWithChar (l : Str) (c : Char) : Prop := l.head? = some c

instance (l : Str) (c : Char) : Decidable (startsWithChar l c) := by
  unfold startsWithChar; infer_instance

/-- Embedding of `re.match` with the pattern of `re_info_matcher`,
`([a-z\-]+):\s*([\w\-\.]+)`.  Python `re.match` anchors only at the start of
the string, so trailing characters after the matched value are permitted; the
character classes are disjoint from their followers, so the regex engine's
greedy matching is plain maximal munch. -/
def reInfoMatch (l : Str) : Option (Str × Str) :=
  if l.takeWhile isKeyChar = [] then none
  else
    match l.dropWhile isKeyChar with
    | ':' :: r2 =>
      if (r2.dropWhile isPySpace).takeWhile isValueChar = [] then none
      else some (l.takeWhile isKeyChar, (r2.dropWhile isPySpace).takeWhile isValueChar)
    | _ => none

/-- Right-strip copies of the character `c` (Python `str.rstrip('/')`). -/
def dropTrailing (c : Char) (l : Str) : Str := (l.reverse.dropWhile (· == c)).reverse

/-- Embedding of `os.path.split` (posixpath): split after the last `/`; the
head keeps the slash, then has trailing slashes stripped unless it is all
slashes. -/
def posixSplit (p : Str) : Str × Str :=
  let i := p.length - (p.reverse.takeWhile (fun c => !(c == '/'))).length
  let head := p.take i
  let tl := p.drop i
  (if head ≠ [] ∧ ¬(∀ c ∈ head, c = '/') then dropTrailing '/' head else head, tl)

/-- Parser state of `get_patch_info`'s loop: the `settings` dict (fixed keys
`base-commit` and `final-commit`), the ordered `patches` list, the `patch_set`
dedup set (modelled as the list of members inserted so far), and
`available_settings_count`. -/
structure PState where
  base : Option Str
  final : Option Str
  patches : List Str
  patchSet : List Str
  count : Nat
deriving DecidableEq

/-- The state at the top of `get_patch_info`. -/
def initState : PState := ⟨none, none, [], [], 0⟩

/-- `[k for k, v in settings.items() if v is None]` — the dict iterates in
insertion order, `base-commit` then `final-commit`. -/
def missingKeys (st : PState) : List Str :=
  (if st.base = none then [strLit "base-commit"] else []) ++
    (if st.final = none then [strLit "final-commit"] else [])

/-- The body of `get_patch_info`'s loop after the `l = l.strip()` reassignment:
skip blank and comment lines, handle a setting assignment when the settings
regex matches, otherwise validate the line as a patch-file entry.  Errors are
the `ValueError` message strings raised by the source. -/
def processStripped (st : PState) (l : Str) : Except Str PState :=
  if l = [] then .ok st
  else if startsWithChar l '#' then .ok st
  else
    match reInfoMatch l with
    | some (k, v) =>
      if k ≠ strLit "base-commit" ∧ k ≠ strLit "final-commit" then
        .error (strLit "Unknown setting: " ++ k)
      else if k = strLit "base-commit" then
        if st.base ≠ none then .error (strLit "Duplicate setting for " ++ k)
        else .ok { st with base := some v, count := st.count + 1 }
      else
        if st.final ≠ none then .error (strLit "Duplicate setting for " ++ k)
        else .ok { st with final := some v, count := st.count + 1 }
    | none =>
      if st.count ≠ 2 then
        .error (strLit "Please fill these settings: " ++
          List.intercalate (strLit ", ") (missingKeys st))
      else if startsWithChar (posixSplit l).1 '/' then
        .error (strLit "Patch file location must be relative")
      else if ¬ (strLit ".patch" <:+ (posixSplit l).2) then
        .error (strLit "Patches must end with '.patch'")
      else if ¬ (∀ comp ∈ l.splitOn '/', ¬ startsWithChar comp '.') then
        .error (strLit "All path components must not contain leading dots")
      else if l ∈ st.patchSet then
        .error (strLit "Duplicate instances of patch '" ++ l ++ strLit "'!")
      else .ok { st with patches := st.patches ++ [l], patchSet := l :: st.patchSet }

/-- One iteration of the line loop of `get_patch_info`: the line is stripped
first. -/
def processLine (st : PState) (l0 : Str) : Except Str PState :=
  processStripped st (stripStr l0)

/-- The line loop of `get_patch_info` over the manifest's lines. -/
def parseLines : PState → List Str → Except Str PState
  | st, [] => .ok st
  | st, l :: rest =>
    match processLine st l with
    | .ok st' => parseLines st' rest
    | .error e => .error e

/-- `get_patch_info`, given the lines of `patches.list`: returns the settings
pair and the patch list, or the message of the `ValueError` it reports. -/
def getPatchInfo (lines : List Str) : Except Str ((Option Str × Option Str) × List Str) :=
  (parseLines initState lines).map fun st => ((st.base, st.final), st.patches)

/-- `main`'s sequencing: `get_patch_authors` (the metadata extractor, which
opens the patch files) runs only when `get_patch_info` returned a result. -/
def extractorRuns (lines : List Str) : Bool :=
  match getPatchInfo lines with
  | .ok _ => true
  | .error _ => false

/-- Hex digits of the bytes-pattern class `[\da-fA-F]`, with their values;
the argument is a byte. -/
def hexDigitVal (b : Nat) : Option Nat :=
  if 0x30 ≤ b ∧ b ≤ 0x39 then some (b - 0x30)
  else if 0x61 ≤ b ∧ b ≤ 0x66 then some (b - 0x61 + 10)
  else if 0x41 ≤ b ∧ b ≤ 0x46 then some (b - 0x41 + 10)
  else none

/-- Embedding of `re_name_utf8_sub.sub(re_name_utf8_sub_fn, ·)` over a byte
string: each occurrence of `=XX` with `XX` two hex digits becomes the byte
`0xXX`; scanning resumes after a replacement and advances one byte past a
failed match attempt. -/
def hexSub : List Nat → List Nat
  | b :: b1 :: b2 :: rest =>
    if b = 0x3D then
      match hexDigitVal b1, hexDigitVal b2 with
      | some h1, some h2 => (h1 * 16 + h2) :: hexSub rest
      | _, _ => b :: hexSub (b1 :: b2 :: rest)
    else b :: hexSub (b1 :: b2 :: rest)
  | b :: rest => b :: hexSub rest
  | [] => []

/-- UTF-8 encoding of one scalar value (Python `str.encode('utf8')`). -/
def utf8EncodeChar (c : Char) : List Nat :=
  let n := c.toNat
  if n < 0x80 then [n]
  else if n < 0x800 then [0xC0 + n / 64, 0x80 + n % 64]
  else if n < 0x10000 then [0xE0 + n / 4096, 0x80 + n / 64 % 64, 0x80 + n % 64]
  else [0xF0 + n / 262144, 0x80 + n / 4096 % 64, 0x80 + n / 64 % 64, 0x80 + n % 64]

/-- UTF-8 encoding of a string as a byte list. -/
def utf8Encode (s : Str) : List Nat := (s.map utf8EncodeChar).flatten

/-- A UTF-8 continuation byte. -/
abbrev IsContByte (b : Nat) : Prop := 0x80 ≤ b ∧ b < 0xC0

/-- Strict UTF-8 decoding of a byte list (Python `bytes.decode('utf8')`):
rejects lone continuation bytes, overlong forms, surrogates and values above
U+10FFFF; `none` models the `UnicodeDecodeError`. -/
def utf8Decode : List Nat → Option (List Char)
  | [] => some []
  | b :: rest =>
    if b < 0x80 then (utf8Decode rest).map fun cs => Char.ofNat b :: cs
    else if b < 0xC2 then none
    else if b < 0xE0 then
      match rest with
      | b1 :: r =>
        if IsContByte b1 then
          (utf8Decode r).map fun cs => Char.ofNat ((b - 0xC0) * 64 + (b1 - 0x80)) :: cs
        else none
      | [] => none
    else if b < 0xF0 then
      match rest with
      | b1 :: b2 :: r =>
        if (if b = 0xE0 then 0xA0 ≤ b1 ∧ b1 < 0xC0
            else if b = 0xED then 0x80 ≤ b1 ∧ b1 < 0xA0
            else IsContByte b1) ∧ IsContByte b2 then
          (utf8Decode r).map fun cs =>
            Char.ofNat ((b - 0xE0) * 4096 + (b1 - 0x80) * 64 + (b2 - 0x80)) :: cs
        else none
      | _ => none
    else if b < 0xF5 then
      match rest with
      | b1 :: b2 :: b3 :: r =>
        if (if b = 0xF0 then 0x90 ≤ b1 ∧ b1 < 0xC0
            else if b = 0xF4 then 0x80 ≤ b1 ∧ b1 < 0x90
            else IsContByte b1) ∧ IsContByte b2 ∧ IsContByte b3 then
          (utf8Decode r).map fun cs =>
            Char.ofNat ((b - 0xF0) * 262144 + (b1 - 0x80) * 4096 +
              (b2 - 0x80) * 64 + (b3 - 0x80)) :: cs
        else none
      | _ => none
    else none

/-- Embedding of the match of `re_header`,
`^From [a-f0-9]+ Mon Sep 17 00:00:00 2001$`. -/
def isHexLower (c : Char) : Bool := ('a' ≤ c && c ≤ 'f') || c.isDigit

/-- The fixed mail-envelope header check on a patch's first line. -/
def reHeaderMatch (l : Str) : Prop :=
  l.take 5 = strLit "From " ∧
    (l.drop 5).takeWhile isHexLower ≠ [] ∧
    (l.drop 5).dropWhile isHexLower = strLit " Mon Sep 17 00:00:00 2001"

instance (l : Str) : Decidable (reHeaderMatch l) := by
  unfold reHeaderMatch; infer_instance

/-- Helper for the author regex: in the reversed remainder of the From field,
find the first adjacent pair `'<', ' '` (i.e. the last `" <"` of the forward
string) and split there.  This realizes the greedy choice of
`^From: (.*) <(.*)>$`: group 1 takes the longest prefix. -/
def revFindTag : Str → Option (Str × Str)
  | [] => none
  | [_] => none
  | c0 :: c1 :: rest =>
    if c0 = '<' ∧ c1 = ' ' then some ([], rest)
    else (revFindTag (c1 :: rest)).map fun ab => (c0 :: ab.1, ab.2)

/-- Embedding of the match of `re_author`, `^From: (.*) <(.*)>$`, returning
(name, email): the string must start with `From: `, end with `>`, and the
split is at the last `" <"` in between. -/
def parseFromField (s : Str) : Option (Str × Str) :=
  if s.take 6 = strLit "From: " then
    match (s.drop 6).reverse with
    | '>' :: rmid =>
      match revFindTag rmid with
      | some (revE, revN) => some (revN.reverse, revE.reverse)
      | none => none
    | _ => none
  else none

/-- Embedding of the match of `re_name_utf8_detect`, `^=\?UTF-8\?q\?(.+)\?=$`,
returning the inner payload. -/
def encodedWordDetect (n : Str) : Option Str :=
  if n.take 10 = strLit "=?UTF-8?q?" then
    match (n.drop 10).reverse with
    | '=' :: '?' :: rp => if rp = [] then none else some rp.reverse
    | _ => none
  else none

/-- Stand-in for the message of the `UnicodeDecodeError` (a `ValueError`)
raised when the substituted byte string is not valid UTF-8. -/
def decodeErrMsg : Str := strLit "UnicodeDecodeError"

/-- From the accumulated From field to the (name, email) author record: match
`re_author`, then decode the name if it is an encoded word; the email is used
exactly as captured. -/
def authorFromField (s : Str) : Except Str (Str × Str) :=
  match parseFromField s with
  | none => .error (strLit "Error reading patch's author")
  | some (n, e) =>
    match encodedWordDetect n with
    | some p =>
      match utf8Decode (hexSub (utf8Encode p)) with
      | some nm => .ok (nm, e)
      | none => .error decodeErrMsg
    | none => .ok (n, e)

/-- The line scan of `get_patch_authors` from line 1 on: `i` is the line
index, `acc` the accumulated (reversed) `authorlines`.  Line 1 must start with
`From: `; a line starting with `Date: ` ends the scan; every scanned line is
right-stripped and accumulated. -/
def collectAuthorLines : List Str → Nat → List Str → Except Str (List Str)
  | [], _, acc => .ok acc.reverse
  | l0 :: rest, i, acc =>
    let l := rstripStr l0
    if i = 1 ∧ ¬ l.take 6 = strLit "From: " then .error (strLit "'From' field not found")
    else if l.take 6 = strLit "Date: " then .ok acc.reverse
    else collectAuthorLines rest (i + 1) (l :: acc)

/-- `get_patch_authors` for a single patch file, given its lines (without the
newline terminators): line 0 must match the envelope header, the following
lines accumulate the From field until a `Date: ` line, and the field is parsed
and decoded into the author record. -/
def getPatchAuthorOne : List Str → Except Str (Str × Str)
  | [] => authorFromField []
  | l0 :: rest =>
    if reHeaderMatch (rstripStr l0) then
      match collectAuthorLines rest 1 [] with
      | .ok als => authorFromField als.flatten
      | .error e => .error e
    else .error (strLit "Invalid header")

/-- `get_patch_authors` over the whole patch list: each file's name with its
lines; a failure is reported as `Error in '<file>': <msg>` and ends the run. -/
def getPatchAuthors : List (Str × List Str) → Except Str (List (Str × Str))
  | [] => .ok []
  | (fn, ls) :: rest =>
    match getPatchAuthorOne ls with
    | .error e => .error (strLit "Error in '" ++ fn ++ strLit "': " ++ e)
    | .ok a =>
      match getPatchAuthors rest with
      | .ok as => .ok (a :: as)
      | .error e => .error e

/-- The committer-identity environment variables `GIT_COMMITTER_NAME` and
`GIT_COMMITTER_EMAIL` of `committer_env` (the rest of the inherited
environment does not change across the loop). -/
structure CommitterEnv where
  name : Option Str
  email : Option Str
deriving DecidableEq

/-- Valid abort answer at the conflict prompt: `A` or `a`. -/
def isAbortInput (s : Str) : Prop := s = strLit "A" ∨ s = strLit "a"

/-- Valid continue answer at the conflict prompt: `C` or `c`. -/
def isContinueInput (s : Str) : Prop := s = strLit "C" ∨ s = strLit "c"

/-- An input the conflict prompt accepts. -/
def isValidInput (s : Str) : Prop := isAbortInput s ∨ isContinueInput s

instance (s : Str) : Decidable (isAbortInput s) := by unfold isAbortInput; infer_instance

instance (s : Str) : Decidable (isContinueInput s) := by unfold isContinueInput; infer_instance

instance (s : Str) : Decidable (isValidInput s) := by unfold isValidInput; infer_instance

/-- The `while True` conflict prompt, consuming the operator's input stream:
abort answers yield `false`, continue answers `true`, anything else
re-prompts; `none` models `input()` raising at end of input. -/
def promptLoop : List Str → Option (Bool × List Str)
  | [] => none
  | s :: rest =>
    if isAbortInput s then some (false, rest)
    else if isContinueInput s then some (true, rest)
    else promptLoop rest

/-- Outcome of the patch-application loop. -/
inductive LoopOut where
  | completed
  | conflictAbort (patch : Str)
  | userAborted
  | inputExhausted
deriving DecidableEq

/-- The `for i, patchname in enumerate(patchlist)` loop of `apply_patches`:
`amOk i` is the exit status of `git am` for patch index `i` (`true` =
returncode 0), the list carries `(patchname, (author name, author email))`,
`i` the current index, and the environment and input stream are threaded
through.  Returns the `git am` invocations (index and committer environment at
the call), the remaining inputs, and the outcome. -/
def applyLoop (abortOnConflict : Bool) (amOk : Nat → Bool) :
    List (Str × Str × Str) → Nat → CommitterEnv → List Str →
    List (Nat × CommitterEnv) × List Str × LoopOut
  | [], _, _, inputs => ([], inputs, .completed)
  | (pname, author) :: rest, i, _prevEnv, inputs =>
    let env : CommitterEnv := ⟨some author.1, some author.2⟩
    if amOk i then
      let r := applyLoop abortOnConflict amOk rest (i + 1) env inputs
      ((i, env) :: r.1, r.2.1, r.2.2)
    else if abortOnConflict then ([(i, env)], inputs, .conflictAbort pname)
    else
      match promptLoop inputs with
      | none => ([(i, env)], [], .inputExhausted)
      | some (false, rest') => ([(i, env)], rest', .userAborted)
      | some (true, rest') =>
        let r := applyLoop abortOnConflict amOk rest (i + 1) env rest'
        ((i, env) :: r.1, r.2.1, r.2.2)

/-- Result of `apply_patches`: the raised exception (by its message-carrying
constructor) or success. -/
inductive EngineResult where
  | success
  | assertFailed
  | branchError
  | applyError (patch : Str)
  | userAborted
  | inputExhausted
  | hashMismatch (got expected : Str)
deriving DecidableEq

/-- The message string of each fatal outcome, as raised by the source. -/
def resultMsg : EngineResult → Str
  | .branchError => strLit "Error creating branch"
  | .applyError p => strLit "Error applying patch '" ++ p ++ strLit "' cleanly."
  | .userAborted => strLit "User aborted the conflict resolution operation"
  | .hashMismatch g e =>
    strLit "Resulting commit hash '" ++ g ++
      strLit "' differs from the expected hash '" ++ e ++ strLit "'"
  | _ => []

/-- `apply_patches` against an external world: `branchOk` is the exit status
of `git checkout -b <branch> <base-commit>`, `amOk` the per-index `git am`
status, `inputs` the operator's prompt answers, `headRaw` the stdout of
`git rev-parse HEAD`.  The length assertion, branch creation, the patch loop,
and the final-hash verification follow the source in order. -/
def applyPatches (branchOk : Bool) (amOk : Nat → Bool) (inputs : List Str)
    (headRaw : Str) (finalCommit : Str) (patchlist : List Str)
    (authors : List (Str × Str)) (abortOnConflict : Bool) :
    List (Nat × CommitterEnv) × EngineResult :=
  if patchlist.length ≠ authors.length then ([], .assertFailed)
  else if ¬ branchOk = true then ([], .branchError)
  else
    let r := applyLoop abortOnConflict amOk (patchlist.zip authors) 0 ⟨none, none⟩ inputs
    match r.2.2 with
    | .completed =>
      (r.1,
        if finalCommit = strLit "ignore" then .success
        else if stripStr headRaw = finalCommit then .success
        else .hashMismatch (stripStr headRaw) finalCommit)
    | .conflictAbort p => (r.1, .applyError p)
    | .userAborted => (r.1, .userAborted)
    | .inputExhausted => (r.1, .inputExhausted)

/-- The expected invocation trace when every patch from index `k` on applies
cleanly: each index paired with its own author's committer environment. -/
def fullTrace : Nat → List (Str × Str × Str) → List (Nat × CommitterEnv)
  | _, [] => []
  | k, (_, author) :: rest => (k, ⟨some author.1, some author.2⟩) :: fullTrace (k + 1) rest

/-- Second reading for the settings-line claim, following the claim's words:
the line is a setting assignment only when the WHOLE line is
`key: value` (so a line carrying extra characters after the value is not).
The source's `re.match` instead accepts a matching prefix. -/
def settingFullLineForm (l : Str) : Option (Str × Str) :=
  if l.takeWhile isKeyChar = [] then none
  else
    match l.dropWhile isKeyChar with
    | ':' :: r2 =>
      if (r2.dropWhile isPySpace).takeWhile isValueChar = [] then none
      else if (r2.dropWhile isPySpace).dropWhile isValueChar = [] then
        some (l.takeWhile isKeyChar, (r2.dropWhile isPySpace).takeWhile isValueChar)
      else none
    | _ => none

/-- The checks a patch-entry line has passed when `get_patch_info` appends it
(the line is stored stripped). -/
def EntryOk (p : Str) : Prop :=
  p ≠ [] ∧
    ¬ startsWithChar p '#' ∧
    reInfoMatch p = none ∧
    ¬ startsWithChar (posixSplit p).1 '/' ∧
    strLit ".patch" <:+ (posixSplit p).2 ∧
    ∀ comp ∈ p.splitOn '/', ¬ startsWithChar comp '.'

/-- Invariant of the parser state across the line loop. -/
def StInv (st : PState) : Prop :=
  st.patches.Nodup ∧
    (∀ p ∈ st.patches, EntryOk p) ∧
    st.count = (if st.base.isSome then 1 else 0) + (if st.final.isSome then 1 else 0) ∧
    (st.patches ≠ [] → st.count = 2) ∧
    ∀ p, p ∈ st.patchSet ↔ p ∈ st.patches

-- ## Theorems

theorem parseLines_append (st : PState) (xs ys : List Str) :
    parseLines st (xs ++ ys) =
      match parseLines st xs with
      | .ok st1 => parseLines st1 ys
      | .error e => .error e := by
  induction xs generalizing st with
  | nil => simp [parseLines]
  | cons l xs ih =>
    simp only [List.cons_append, parseLines]
    cases h : processLine st l with
    | ok st1 => simpa using ih st1
    | error e => rfl

theorem processStripped_ok_cases (st : PState) (l : Str) (st1 : PState)
    (h : processStripped st l = .ok st1) :
    (st1.patches = st.patches ∧ st1.patchSet = st.patchSet) ∨
    st1 = { st with patches := st.patches ++ [l], patchSet := l :: st.patchSet } := by
  unfold processStripped at h
  repeat' split at h
  all_goals simp at h
  all_goals subst h
  all_goals simp


theorem stInv_init : StInv initState := by
  refine ⟨List.nodup_nil, ?_, rfl, ?_, ?_⟩ <;> simp [initState]

theorem processStripped_inv (st : PState) (l : Str) (st1 : PState)
    (hInv : StInv st) (h : processStripped st l = .ok st1) : StInv st1 := by
  obtain ⟨hnd, hok, hcount, hfull, hset⟩ := hInv
  unfold processStripped at h
  repeat' split at h
  all_goals simp at h
  all_goals subst h
  · exact ⟨hnd, hok, hcount, hfull, hset⟩
  · exact ⟨hnd, hok, hcount, hfull, hset⟩
  · -- base-commit assigned
    rename_i hbase
    rw [not_not] at hbase
    refine ⟨hnd, hok, ?_, ?_, hset⟩
    · cases hf : st.final <;> simp [hbase, hf] at hcount ⊢ <;> omega
    · intro hne
      have h2 := hfull hne
      cases hf : st.final <;> simp [hbase, hf] at hcount <;> omega
  · -- final-commit assigned
    rename_i hfin
    rw [not_not] at hfin
    refine ⟨hnd, hok, ?_, ?_, hset⟩
    · cases hb : st.base <;> simp [hfin, hb] at hcount ⊢ <;> omega
    · intro hne
      have h2 := hfull hne
      cases hb : st.base <;> simp [hfin, hb] at hcount <;> omega
  · -- patch entry appended
    rename_i hne hnh hx hre hcnt hslash hsuf hcomp hmem
    have hcnt2 : st.count = 2 := not_not.mp hcnt
    have hsuf2 := not_not.mp hsuf
    have hcomp2 := not_not.mp hcomp
    have hnotmem : l ∉ st.patches := fun hm => hmem ((hset l).mpr hm)
    refine ⟨?_, ?_, hcount, ?_, ?_⟩
    · simp [List.nodup_append, hnd, hnotmem]
    · intro p hp
      rcases List.mem_append.mp hp with hp | hp
      · exact hok p hp
      · simp at hp
        subst hp
        exact ⟨hne, hnh, hre, hslash, hsuf2, hcomp2⟩
    · intro _
      exact hcnt2
    · intro p
      simp only [List.mem_cons, List.mem_append, List.mem_singleton, hset p]
      tauto

theorem parseLines_inv (st : PState) (ls : List Str) (st1 : PState)
    (hInv : StInv st) (h : parseLines st ls = .ok st1) : StInv st1 := by
  induction ls generalizing st with
  | nil => simp [parseLines] at h; subst h; exact hInv
  | cons l ls ih =>
    simp only [parseLines] at h
    cases hp : processLine st l with
    | ok st2 =>
      rw [hp] at h
      exact ih st2 (processStripped_inv st (stripStr l) st2 hInv hp) h
    | error e => rw [hp] at h; exact absurd h (by simp)


theorem parseLines_sublist (st : PState) (ls : List Str) (st1 : PState)
    (h : parseLines st ls = .ok st1) :
    ∃ ex, st1.patches = st.patches ++ ex ∧ List.Sublist ex (ls.map stripStr) := by
  induction ls generalizing st with
  | nil =>
    simp [parseLines] at h
    subst h
    exact ⟨[], by simp⟩
  | cons l ls ih =>
    simp only [parseLines] at h
    cases hp : processLine st l with
    | error e => rw [hp] at h; exact absurd h (by simp)
    | ok st2 =>
      rw [hp] at h
      obtain ⟨ex, hex, hsub⟩ := ih st2 h
      rcases processStripped_ok_cases st (stripStr l) st2 hp with ⟨hsame, _⟩ | hupd
      · refine ⟨ex, by rw [hex, hsame], ?_⟩
        simp only [List.map_cons]
        exact hsub.cons _
      · refine ⟨stripStr l :: ex, ?_, ?_⟩
        · rw [hex, hupd]
          simp
        · simp only [List.map_cons]
          exact hsub.cons₂ _

theorem takeWhile_length_lt (q : Char → Bool) (l : Str) (x : Char)
    (hx : x ∈ l) (hqx : q x = false) : (l.takeWhile q).length < l.length := by
  have hpre := List.takeWhile_prefix (l := l) (p := q)
  rcases Nat.lt_or_ge (l.takeWhile q).length l.length with h | h
  · exact h
  · exfalso
    have heq : l.takeWhile q = l := hpre.eq_of_length (Nat.le_antisymm hpre.length_le h)
    rw [← heq] at hx
    rw [List.mem_takeWhile_imp hx] at hqx
    cases hqx

theorem posixSplit_head_slash (p : Str) (h : startsWithChar p '/') :
    startsWithChar (posixSplit p).1 '/' := by
  obtain ⟨p', rfl⟩ : ∃ p', p = '/' :: p' := by
    cases p with
    | nil => simp [startsWithChar] at h
    | cons c p' =>
      simp [startsWithChar] at h
      exact ⟨p', by rw [h]⟩
  have hlt : ((('/' :: p').reverse).takeWhile (fun c => !(c == '/'))).length <
      ('/' :: p').reverse.length := by
    refine takeWhile_length_lt _ _ '/' (by simp) (by simp)
  rw [List.length_reverse] at hlt
  unfold posixSplit
  set i := ('/' :: p').length - ((('/' :: p').reverse).takeWhile (fun c => !(c == '/'))).length with hi
  have hipos : 1 ≤ i := by omega
  obtain ⟨j, hj⟩ : ∃ j, i = j + 1 := ⟨i - 1, by omega⟩
  have htake : ('/' :: p').take i = '/' :: p'.take j := by rw [hj]; rfl
  simp only [htake]
  split
  · -- trailing slashes stripped
    rename_i hcond
    obtain ⟨hne2, hnotall⟩ := hcond
    push_neg at hnotall
    obtain ⟨c0, hc0mem, hc0⟩ := hnotall
    have hdne : ('/' :: p'.take j).reverse.dropWhile (· == '/') ≠ [] := by
      intro hnil
      rw [List.dropWhile_eq_nil_iff] at hnil
      have := hnil c0 (by rw [List.mem_reverse]; exact hc0mem)
      simp at this
      exact hc0 this
    have hpre : (('/' :: p'.take j).reverse.dropWhile (· == '/')).reverse <+: ('/' :: p'.take j) := by
      rw [← List.reverse_suffix]
      simpa using List.dropWhile_suffix (l := ('/' :: p'.take j).reverse) (· == '/')
    obtain ⟨t, ht⟩ := hpre
    unfold dropTrailing
    cases hd : (('/' :: p'.take j).reverse.dropWhile (· == '/')).reverse with
    | nil => exact absurd (by simpa using hd) hdne
    | cons c cs =>
      rw [hd] at ht
      simp only [List.cons_append] at ht
      injection ht with h1 _
      simp [startsWithChar, hd, h1]
  · simp [startsWithChar]


/-- C3: for every manifest the parser accepts, the patch list preserves
manifest order (it is a sublist of the stripped lines), contains no duplicate,
and every entry is relative (does not start with a slash), has a filename
component ending in the patch suffix, and has no dot-leading path component;
the settings are both populated whenever a patch entry was accepted (amended:
a manifest with no patch entry is accepted with unassigned settings). -/
theorem C3_parser_result_invariants (lines : List Str) (s : Option Str × Option Str)
    (ps : List Str) (h : getPatchInfo lines = .ok (s, ps)) :
    ps.Nodup ∧
    List.Sublist ps (lines.map stripStr) ∧
    (∀ p ∈ ps, ¬ startsWithChar p '/' ∧
      strLit ".patch" <:+ (posixSplit p).2 ∧
      ∀ comp ∈ p.splitOn '/', ¬ startsWithChar comp '.') ∧
    (ps ≠ [] → s.1.isSome ∧ s.2.isSome) := by
  unfold getPatchInfo at h
  cases hp : parseLines initState lines with
  | error e => rw [hp] at h; simp [Except.map] at h
  | ok st =>
    rw [hp] at h
    simp only [Except.map, Except.ok.injEq, Prod.mk.injEq] at h
    obtain ⟨hs, hps⟩ := h
    have hInv := parseLines_inv _ _ _ stInv_init hp
    obtain ⟨hnd, hok, hcount, hfull, _⟩ := hInv
    obtain ⟨ex, hex, hsub⟩ := parseLines_sublist _ _ _ hp
    simp only [initState, List.nil_append] at hex
    subst hps hs
    refine ⟨hnd, hex ▸ hsub, ?_, ?_⟩
    · intro p hp2
      obtain ⟨hne, hnh, hre, hslash, hsuf, hcomp⟩ := hok p hp2
      exact ⟨fun hst => hslash (posixSplit_head_slash p hst), hsuf, hcomp⟩
    · intro hne
      have h2 := hfull hne
      cases hb : st.base <;> cases hf : st.final <;>
        simp [hb, hf] at hcount ⊢ <;> omega

theorem C3_counterexample :
    getPatchInfo [strLit "base-commit: abc"] =
      .ok ((some (strLit "abc"), none), []) ∧
    (none : Option Str).isSome = false :=
  ⟨rfl, rfl⟩

theorem C3_witness :
    ([strLit "sub/p.patch"] : List Str).Nodup ∧
    List.Sublist [strLit "sub/p.patch"]
      ([strLit "base-commit: a", strLit "final-commit: b", strLit "sub/p.patch"].map stripStr) ∧
    (∀ p ∈ [strLit "sub/p.patch"], ¬ startsWithChar p '/' ∧
      strLit ".patch" <:+ (posixSplit p).2 ∧
      ∀ comp ∈ p.splitOn '/', ¬ startsWithChar comp '.') ∧
    (([strLit "sub/p.patch"] : List Str) ≠ [] →
      (some (strLit "a")).isSome ∧ (some (strLit "b")).isSome) :=
  C3_parser_result_invariants
    [strLit "base-commit: a", strLit "final-commit: b", strLit "sub/p.patch"]
    (some (strLit "a"), some (strLit "b")) [strLit "sub/p.patch"] rfl


/-- C6: a non-blank, non-comment line that is not a setting assignment, met
while the two settings are not yet both assigned, fails the parse with an
error naming exactly the settings still missing. -/
theorem C6_entry_before_settings (pre : List Str) (l : Str) (rest : List Str)
    (st : PState)
    (hpre : parseLines initState pre = .ok st)
    (hcount : st.count ≠ 2)
    (hne : stripStr l ≠ [])
    (hnh : ¬ startsWithChar (stripStr l) '#')
    (hm : reInfoMatch (stripStr l) = none) :
    getPatchInfo (pre ++ l :: rest) =
      .error (strLit "Please fill these settings: " ++
        List.intercalate (strLit ", ") (missingKeys st)) ∧
    missingKeys st ≠ [] ∧
    (∀ k, k ∈ missingKeys st ↔
      (k = strLit "base-commit" ∧ st.base = none) ∨
      (k = strLit "final-commit" ∧ st.final = none)) := by
  have hproc : processLine st l =
      .error (strLit "Please fill these settings: " ++
        List.intercalate (strLit ", ") (missingKeys st)) := by
    unfold processLine processStripped
    repeat' split
    all_goals simp_all
  obtain ⟨_, _, hcf, _, _⟩ := parseLines_inv _ _ _ stInv_init hpre
  refine ⟨?_, ?_, ?_⟩
  · unfold getPatchInfo
    rw [parseLines_append, hpre]
    simp only [parseLines]
    rw [hproc]
    rfl
  · cases hb : st.base <;> cases hf : st.final <;>
      simp [missingKeys, hb, hf]
    exfalso
    apply hcount
    simp [hb, hf] at hcf
    omega
  · intro k
    cases hb : st.base <;> cases hf : st.final <;>
      simp [missingKeys, hb, hf]

theorem C6_witness :
    getPatchInfo ([strLit "base-commit: abc"] ++ strLit "x.patch" :: []) =
      .error (strLit "Please fill these settings: " ++
        List.intercalate (strLit ", ")
          (missingKeys ⟨some (strLit "abc"), none, [], [], 1⟩)) ∧
    missingKeys ⟨some (strLit "abc"), none, [], [], 1⟩ ≠ [] ∧
    (∀ k, k ∈ missingKeys ⟨some (strLit "abc"), none, [], [], 1⟩ ↔
      (k = strLit "base-commit" ∧ (some (strLit "abc") : Option Str) = none) ∨
      (k = strLit "final-commit" ∧ (none : Option Str) = none)) :=
  C6_entry_before_settings [strLit "base-commit: abc"] (strLit "x.patch") []
    ⟨some (strLit "abc"), none, [], [], 1⟩ rfl (by decide) (by decide) (by decide) (by decide)

/-- C7: a manifest that repeats a patch-entry string fails with the
duplicate-entry error naming that entry, and `main` never invokes the
metadata extractor on such a manifest. -/
theorem C7_duplicate_entry (pre : List Str) (l : Str) (rest : List Str) (st : PState)
    (hpre : parseLines initState pre = .ok st)
    (hmem : stripStr l ∈ st.patches) :
    getPatchInfo (pre ++ l :: rest) =
      .error (strLit "Duplicate instances of patch '" ++ stripStr l ++ strLit "'!") ∧
    stripStr l <:+: strLit "Duplicate instances of patch '" ++ stripStr l ++ strLit "'!" ∧
    extractorRuns (pre ++ l :: rest) = false := by
  have hInv := parseLines_inv _ _ _ stInv_init hpre
  obtain ⟨hnd, hok, hcount, hfull, hset⟩ := hInv
  obtain ⟨hne, hnh, hre, hslash, hsuf, hcomp⟩ := hok _ hmem
  have hcnt2 : st.count = 2 := hfull (by intro h0; rw [h0] at hmem; simp at hmem)
  have hmem2 : stripStr l ∈ st.patchSet := (hset _).mpr hmem
  have hproc : processLine st l =
      .error (strLit "Duplicate instances of patch '" ++ stripStr l ++ strLit "'!") := by
    unfold processLine processStripped
    repeat' split
    all_goals simp_all
  have hres : getPatchInfo (pre ++ l :: rest) =
      .error (strLit "Duplicate instances of patch '" ++ stripStr l ++ strLit "'!") := by
    unfold getPatchInfo
    rw [parseLines_append, hpre]
    simp only [parseLines]
    rw [hproc]
    rfl
  refine ⟨hres, ?_, ?_⟩
  · exact ⟨strLit "Duplicate instances of patch '", strLit "'!", rfl⟩
  · unfold extractorRuns
    rw [hres]

theorem C7_witness :
    getPatchInfo ([strLit "base-commit: a", strLit "final-commit: b", strLit "x.patch"] ++
        strLit "x.patch" :: []) =
      .error (strLit "Duplicate instances of patch '" ++ stripStr (strLit "x.patch") ++
        strLit "'!") ∧
    stripStr (strLit "x.patch") <:+:
      strLit "Duplicate instances of patch '" ++ stripStr (strLit "x.patch") ++ strLit "'!" ∧
    extractorRuns ([strLit "base-commit: a", strLit "final-commit: b", strLit "x.patch"] ++
      strLit "x.patch" :: []) = false :=
  C7_duplicate_entry [strLit "base-commit: a", strLit "final-commit: b", strLit "x.patch"]
    (strLit "x.patch") []
    ⟨some (strLit "a"), some (strLit "b"), [strLit "x.patch"], [strLit "x.patch"], 2⟩
    rfl (by decide)

theorem takeWhile_append_all {α : Type} (p : α → Bool) (k t : List α)
    (hk : ∀ c ∈ k, p c = true) (ht : ∀ c, t.head? = some c → p c = false) :
    (k ++ t).takeWhile p = k := by
  induction k with
  | nil =>
    cases t with
    | nil => rfl
    | cons c t =>
      simp [List.takeWhile_cons, ht c rfl]
  | cons a k ih =>
    have hpa := hk a (List.mem_cons_self a k)
    simp only [List.cons_append, List.takeWhile_cons, hpa, if_true]
    rw [ih (fun c hc => hk c (List.mem_cons_of_mem a hc))]

theorem dropWhile_append_all {α : Type} (p : α → Bool) (k t : List α)
    (hk : ∀ c ∈ k, p c = true) (ht : ∀ c, t.head? = some c → p c = false) :
    (k ++ t).dropWhile p = t := by
  induction k with
  | nil =>
    cases t with
    | nil => rfl
    | cons c t =>
      simp [List.dropWhile_cons, ht c rfl]
  | cons a k ih =>
    have hpa := hk a (List.mem_cons_self a k)
    simp only [List.cons_append, List.dropWhile_cons, hpa, if_true]
    exact ih (fun c hc => hk c (List.mem_cons_of_mem a hc))

theorem head?_dropWhile_false {α : Type} (p : α → Bool) (l : List α) (c : α)
    (h : (l.dropWhile p).head? = some c) : p c = false := by
  induction l with
  | nil => simp [List.dropWhile] at h
  | cons a l ih =>
    rw [List.dropWhile_cons] at h
    by_cases hpa : p a = true
    · rw [if_pos hpa] at h
      exact ih h
    · rw [if_neg hpa] at h
      simp at h
      subst h
      simpa using hpa

theorem valueChar_not_space (c : Char) (h : isValueChar c = true) : isPySpace c = false := by
  by_contra hs
  rw [Bool.not_eq_false] at hs
  simp only [isPySpace, Bool.or_eq_true, beq_iff_eq] at hs
  rcases hs with ((((h1 | h1) | h1) | h1) | h1) | h1 <;> subst h1 <;> exact absurd h (by decide)

theorem reInfoMatch_some_iff (l k v : Str) :
    reInfoMatch l = some (k, v) ↔
      ∃ ws rest, l = k ++ ':' :: (ws ++ v ++ rest) ∧
        k ≠ [] ∧ (∀ c ∈ k, isKeyChar c = true) ∧
        (∀ c ∈ ws, isPySpace c = true) ∧
        v ≠ [] ∧ (∀ c ∈ v, isValueChar c = true) ∧
        (∀ c, rest.head? = some c → isValueChar c = false) := by
  constructor
  · intro h
    unfold reInfoMatch at h
    split at h
    · exact absurd h (by simp)
    · rename_i hk
      split at h
      · rename_i r2 heq
        split at h
        · exact absurd h (by simp)
        · rename_i hv
          simp only [Option.some.injEq, Prod.mk.injEq] at h
          obtain ⟨hk2, hv2⟩ := h
          subst hk2
          subst hv2
          refine ⟨r2.takeWhile isPySpace, (r2.dropWhile isPySpace).dropWhile isValueChar,
            ?_, hk, ?_, ?_, hv, ?_, ?_⟩
          · rw [List.append_assoc, List.takeWhile_append_dropWhile,
              List.takeWhile_append_dropWhile, ← heq, List.takeWhile_append_dropWhile]
          · exact fun c hc => List.mem_takeWhile_imp hc
          · exact fun c hc => List.mem_takeWhile_imp hc
          · exact fun c hc => List.mem_takeWhile_imp hc
          · exact fun c hc => head?_dropWhile_false _ _ _ hc
      · exact absurd h (by simp)
  · rintro ⟨ws, rest, rfl, hk, hkall, hws, hv, hvall, hrest⟩
    have h1 : (k ++ ':' :: (ws ++ v ++ rest)).takeWhile isKeyChar = k := by
      refine takeWhile_append_all _ _ _ hkall ?_
      intro c hc
      simp only [List.head?_cons, Option.some.injEq] at hc
      subst hc
      decide
    have h2 : (k ++ ':' :: (ws ++ v ++ rest)).dropWhile isKeyChar = ':' :: (ws ++ v ++ rest) := by
      refine dropWhile_append_all _ _ _ hkall ?_
      intro c hc
      simp only [List.head?_cons, Option.some.injEq] at hc
      subst hc
      decide
    have h3 : (ws ++ (v ++ rest)).dropWhile isPySpace = v ++ rest := by
      refine dropWhile_append_all _ _ _ hws ?_
      intro c hc
      cases v with
      | nil => exact absurd rfl hv
      | cons a v2 =>
        simp only [List.cons_append, List.head?_cons, Option.some.injEq] at hc
        subst hc
        exact valueChar_not_space _ (hvall a (List.mem_cons_self a v2))
    have h4 : (v ++ rest).takeWhile isValueChar = v :=
      takeWhile_append_all _ _ _ hvall hrest
    unfold reInfoMatch
    simp only [h1, h2]
    rw [if_neg hk]
    have hassoc : ws ++ v ++ rest = ws ++ (v ++ rest) := by simp
    rw [hassoc, h3, h4, if_neg hv]


theorem reInfoMatch_shape (l k v : Str) (h : reInfoMatch l = some (k, v)) :
    l ≠ [] ∧ ¬ startsWithChar l '#' := by
  obtain ⟨ws, rest, rfl, hk, hkall, -, -, -, -⟩ := (reInfoMatch_some_iff _ _ _).mp h
  cases k with
  | nil => exact absurd rfl hk
  | cons a k2 =>
    refine ⟨by simp, ?_⟩
    intro hsw
    simp only [startsWithChar, List.cons_append, List.head?_cons, Option.some.injEq] at hsw
    have := hkall a (List.mem_cons_self a k2)
    rw [hsw] at this
    exact absurd this (by decide)

/-- C9 (amended): a non-blank, non-comment manifest line is treated as a
setting assignment exactly when a PREFIX of it matches the form of
`key: value` — the key a nonempty run of lowercase letters and hyphens, a
colon, optional whitespace, then a nonempty maximal run of word characters,
hyphens and dots — with any remaining characters after the value ignored
(the source uses `re.match`, which does not anchor at the end of the line);
a matched line whose key is not one of the two recognized keys fails with an
unknown-setting error, and a matched known key not yet assigned is assigned
the value alone, the trailing characters dropped. -/
theorem C9_setting_line_rule :
    (∀ l k v, reInfoMatch l = some (k, v) ↔
      ∃ ws rest, l = k ++ ':' :: (ws ++ v ++ rest) ∧
        k ≠ [] ∧ (∀ c ∈ k, isKeyChar c = true) ∧
        (∀ c ∈ ws, isPySpace c = true) ∧
        v ≠ [] ∧ (∀ c ∈ v, isValueChar c = true) ∧
        (∀ c, rest.head? = some c → isValueChar c = false)) ∧
    (∀ st l k v, reInfoMatch (stripStr l) = some (k, v) →
      k ≠ strLit "base-commit" → k ≠ strLit "final-commit" →
      processLine st l = .error (strLit "Unknown setting: " ++ k)) ∧
    (∀ st l k v, reInfoMatch (stripStr l) = some (k, v) →
      k = strLit "base-commit" → st.base = none →
      processLine st l = .ok { st with base := some v, count := st.count + 1 }) := by
  refine ⟨reInfoMatch_some_iff, ?_, ?_⟩
  · intro st l k v hm hk1 hk2
    obtain ⟨hne, hnh⟩ := reInfoMatch_shape _ _ _ hm
    unfold processLine processStripped
    repeat' split
    all_goals simp_all
  · intro st l k v hm hk hbase
    obtain ⟨hne, hnh⟩ := reInfoMatch_shape _ _ _ hm
    subst hk
    unfold processLine processStripped
    repeat' split
    all_goals simp_all

theorem C9_counterexample :
    settingFullLineForm (strLit "base-commit: abc $$") = none ∧
    processLine initState (strLit "base-commit: abc $$") =
      .ok ⟨some (strLit "abc"), none, [], [], 1⟩ :=
  ⟨rfl, rfl⟩

theorem C9_witness :
    processLine initState (strLit "foo: bar") =
      .error (strLit "Unknown setting: " ++ strLit "foo") :=
  C9_setting_line_rule.2.1 initState (strLit "foo: bar") (strLit "foo") (strLit "bar")
    (by decide) (by decide) (by decide)

theorem revFindTag_append (xs ys : Str) (h : ∀ a b, xs ≠ a ++ '<' :: ' ' :: b) :
    revFindTag (xs ++ '<' :: ' ' :: ys) = some (xs, ys) := by
  induction xs with
  | nil => simp [revFindTag]
  | cons c xs ih =>
    have h2 : ∀ a b, xs ≠ a ++ '<' :: ' ' :: b := by
      intro a b hab
      exact h (c :: a) b (by rw [hab]; rfl)
    cases xs with
    | nil =>
      show revFindTag (c :: '<' :: ' ' :: ys) = some ([c], ys)
      simp only [revFindTag]
      rw [if_neg (by simp)]
      simp [revFindTag]
    | cons c1 xs2 =>
      have hne : ¬(c = '<' ∧ c1 = ' ') := by
        rintro ⟨rfl, rfl⟩
        exact h [] xs2 rfl
      show revFindTag (c :: c1 :: (xs2 ++ '<' :: ' ' :: ys)) = some (c :: c1 :: xs2, ys)
      simp only [revFindTag]
      rw [if_neg hne, ← List.cons_append, ih h2]
      simp

theorem parseFromField_eq (n e : Str) (he : ¬ (strLit " <" <:+: e)) :
    parseFromField (strLit "From: " ++ n ++ strLit " <" ++ e ++ ['>']) = some (n, e) := by
  have hsl : strLit " <" = [' ', '<'] := rfl
  have hrev : ∀ a b, e.reverse ≠ a ++ '<' :: ' ' :: b := by
    intro a b hab
    apply he
    refine ⟨b.reverse, a.reverse, ?_⟩
    have he2 : e = (a ++ '<' :: ' ' :: b).reverse := by rw [← hab, List.reverse_reverse]
    rw [he2, hsl]
    simp
  have hassoc : strLit "From: " ++ n ++ strLit " <" ++ e ++ ['>'] =
      strLit "From: " ++ (n ++ (strLit " <" ++ (e ++ ['>']))) := by simp
  have htake : (strLit "From: " ++ (n ++ (strLit " <" ++ (e ++ ['>'])))).take 6 =
      strLit "From: " := by
    rw [show (6 : Nat) = (strLit "From: ").length from rfl, List.take_left]
  have hdrop : (strLit "From: " ++ (n ++ (strLit " <" ++ (e ++ ['>'])))).drop 6 =
      n ++ (strLit " <" ++ (e ++ ['>'])) := by
    rw [show (6 : Nat) = (strLit "From: ").length from rfl, List.drop_left]
  have hrev2 : (n ++ (strLit " <" ++ (e ++ ['>']))).reverse =
      '>' :: (e.reverse ++ '<' :: ' ' :: n.reverse) := by
    rw [hsl]
    simp
  unfold parseFromField
  rw [hassoc]
  simp only [htake, hdrop, hrev2]
  rw [if_pos trivial]
  simp only [revFindTag_append _ _ hrev]
  simp

theorem encodedWordDetect_eq_some (p : Str) (hp : p ≠ []) :
    encodedWordDetect (strLit "=?UTF-8?q?" ++ p ++ strLit "?=") = some p := by
  have hassoc : strLit "=?UTF-8?q?" ++ p ++ strLit "?=" =
      strLit "=?UTF-8?q?" ++ (p ++ strLit "?=") := by simp
  have htake : (strLit "=?UTF-8?q?" ++ (p ++ strLit "?=")).take 10 =
      strLit "=?UTF-8?q?" := by
    rw [show (10 : Nat) = (strLit "=?UTF-8?q?").length from rfl, List.take_left]
  have hdrop : (strLit "=?UTF-8?q?" ++ (p ++ strLit "?=")).drop 10 =
      p ++ strLit "?=" := by
    rw [show (10 : Nat) = (strLit "=?UTF-8?q?").length from rfl, List.drop_left]
  have hrev : (p ++ strLit "?=").reverse = '=' :: '?' :: p.reverse := by
    rw [show strLit "?=" = ['?', '='] from rfl]
    simp
  unfold encodedWordDetect
  rw [hassoc]
  simp only [htake, hdrop, hrev]
  rw [if_pos trivial, if_neg (by simp [hp]), List.reverse_reverse]

theorem encodedWordDetect_some_inv (n p : Str) (h : encodedWordDetect n = some p) :
    n = strLit "=?UTF-8?q?" ++ p ++ strLit "?=" ∧ p ≠ [] := by
  unfold encodedWordDetect at h
  split at h
  · rename_i htake
    split at h
    · rename_i rp heq
      split at h
      · exact absurd h (by simp)
      · rename_i hrp
        simp only [Option.some.injEq] at h
        subst h
        constructor
        · have hd : n.drop 10 = rp.reverse ++ ['?', '='] := by
            have := congrArg List.reverse heq
            rw [List.reverse_reverse] at this
            rw [this]
            simp
          conv_lhs => rw [← List.take_append_drop 10 n]
          rw [htake, hd]
          rw [show strLit "?=" = ['?', '='] from rfl]
          simp
        · simpa using hrp
    · exact absurd h (by simp)
  · exact absurd h (by simp)


/-- C2: for a From field of the form `From: <name> <<email>>` (the email free
of `" <"`, so the regex's greedy split lands between name and email): when the
name is an encoded word `=?UTF-8?q?<payload>?=`, the author record is obtained
by replacing every `=XX` hex escape in the UTF-8 bytes of the payload with the
byte `0xXX` and decoding the result as UTF-8 (a decode failure fails the
extractor); a name not of that form is used verbatim; the email is returned
exactly as captured in every case.  In particular
`From: =?UTF-8?q?Jos=C3=A9?= <a@b.com>` yields (`José`, `a@b.com`). -/
theorem C2_author_name_decoding :
    (∀ n e, ¬ (strLit " <" <:+: e) →
      (∀ p, n = strLit "=?UTF-8?q?" ++ p ++ strLit "?=" → p ≠ [] →
        authorFromField (strLit "From: " ++ n ++ strLit " <" ++ e ++ ['>']) =
          match utf8Decode (hexSub (utf8Encode p)) with
          | some nm => .ok (nm, e)
          | none => .error decodeErrMsg) ∧
      ((∀ p, ¬ (n = strLit "=?UTF-8?q?" ++ p ++ strLit "?=" ∧ p ≠ [])) →
        authorFromField (strLit "From: " ++ n ++ strLit " <" ++ e ++ ['>']) =
          .ok (n, e))) ∧
    getPatchAuthorOne [strLit "From 1a2b3c4d Mon Sep 17 00:00:00 2001",
      strLit "From: =?UTF-8?q?Jos=C3=A9?= <a@b.com>",
      strLit "Date: Thu, 1 Jan 2026 00:00:00 +0000"] =
      .ok (strLit "José", strLit "a@b.com") := by
  refine ⟨?_, rfl⟩
  intro n e he
  constructor
  · intro p hn hp
    subst hn
    unfold authorFromField
    simp only [parseFromField_eq _ _ he, encodedWordDetect_eq_some p hp]
  · intro hnp
    have hdet : encodedWordDetect n = none := by
      cases hd : encodedWordDetect n with
      | none => rfl
      | some p =>
        obtain ⟨hn, hp⟩ := encodedWordDetect_some_inv n p hd
        exact absurd ⟨hn, hp⟩ (hnp p)
    unfold authorFromField
    simp only [parseFromField_eq _ _ he, hdet]

theorem C2_witness :
    authorFromField (strLit "From: " ++ strLit "=?UTF-8?q?Jos=C3=A9?=" ++ strLit " <" ++
      strLit "a@b.com" ++ ['>']) = .ok (strLit "José", strLit "a@b.com") := by
  have h := ((C2_author_name_decoding.1 (strLit "=?UTF-8?q?Jos=C3=A9?=") (strLit "a@b.com")
    (by decide)).1 (strLit "Jos=C3=A9") (by decide) (by decide))
  exact h.trans (by rfl)

/-- C10: a patch file with no lines at all does not fail with the
invalid-header error; it fails with the author-reading error (wrapped by the
caller as `Error in '<file>': ...`), and on any patch file the extractor is
total: it returns either a complete author pair or an error. -/
theorem C10_empty_patch_file :
    getPatchAuthorOne [] = .error (strLit "Error reading patch's author") ∧
    getPatchAuthorOne [] ≠ .error (strLit "Invalid header") ∧
    (∀ fn, getPatchAuthors [(fn, [])] =
      .error (strLit "Error in '" ++ fn ++ strLit "': Error reading patch's author")) ∧
    (∀ lines, (∃ a, getPatchAuthorOne lines = .ok a) ∨
      ∃ m, getPatchAuthorOne lines = .error m) := by
  refine ⟨rfl, ?_, ?_, ?_⟩
  · intro h
    rw [show getPatchAuthorOne [] = .error (strLit "Error reading patch's author") from rfl] at h
    injection h with h2
    exact absurd h2 (by decide)
  · intro fn
    unfold getPatchAuthors
    simp only [show getPatchAuthorOne [] = .error (strLit "Error reading patch's author")
      from rfl]
    simp only [List.append_assoc]
    rw [show strLit "': " ++ strLit "Error reading patch's author" =
      strLit "': Error reading patch's author" from rfl]
  · intro lines
    cases h : getPatchAuthorOne lines with
    | ok a => exact Or.inl ⟨a, rfl⟩
    | error m => exact Or.inr ⟨m, rfl⟩

theorem C10_witness :
    getPatchAuthorOne [] = .error (strLit "Error reading patch's author") :=
  C10_empty_patch_file.1

theorem applyLoop_env_irrel (abortc : Bool) (amOk : Nat → Bool)
    (zs : List (Str × Str × Str)) (k : Nat) (env1 env2 : CommitterEnv) (ins : List Str) :
    applyLoop abortc amOk zs k env1 ins = applyLoop abortc amOk zs k env2 ins := by
  cases zs <;> rfl

theorem fullTrace_map_fst (k : Nat) (zs : List (Str × Str × Str)) :
    (fullTrace k zs).map Prod.fst = List.range' k zs.length := by
  induction zs generalizing k with
  | nil => rfl
  | cons z zs ih =>
    obtain ⟨p, a⟩ := z
    simp [fullTrace, List.range'_succ, ih]

theorem applyLoop_all_ok (abortc : Bool) (amOk : Nat → Bool)
    (zs : List (Str × Str × Str)) (k : Nat) (env : CommitterEnv) (ins : List Str)
    (h : ∀ j, j < zs.length → amOk (k + j) = true) :
    applyLoop abortc amOk zs k env ins = (fullTrace k zs, ins, .completed) := by
  induction zs generalizing k env with
  | nil => rfl
  | cons z zs ih =>
    obtain ⟨p, a⟩ := z
    have hk : amOk k = true := by simpa using h 0 (by simp)
    have h2 : ∀ j, j < zs.length → amOk (k + 1 + j) = true := by
      intro j hj
      rw [show k + 1 + j = k + (j + 1) from by omega]
      exact h (j + 1) (by simp; omega)
    simp only [applyLoop, hk, if_true]
    rw [ih (k + 1) ⟨some a.1, some a.2⟩ h2]
    simp [fullTrace]

theorem applyLoop_append_ok (abortc : Bool) (amOk : Nat → Bool)
    (zs1 zs2 : List (Str × Str × Str)) (k : Nat) (env : CommitterEnv) (ins : List Str)
    (h : ∀ j, j < zs1.length → amOk (k + j) = true) :
    applyLoop abortc amOk (zs1 ++ zs2) k env ins =
      (fullTrace k zs1 ++ (applyLoop abortc amOk zs2 (k + zs1.length) env ins).1,
       (applyLoop abortc amOk zs2 (k + zs1.length) env ins).2) := by
  induction zs1 generalizing k env with
  | nil => simp [fullTrace]
  | cons z zs1 ih =>
    obtain ⟨p, a⟩ := z
    have hk : amOk k = true := by simpa using h 0 (by simp)
    have h2 : ∀ j, j < zs1.length → amOk (k + 1 + j) = true := by
      intro j hj
      rw [show k + 1 + j = k + (j + 1) from by omega]
      exact h (j + 1) (by simp; omega)
    simp only [List.cons_append, applyLoop, hk, if_true, List.append_eq]
    rw [ih (k + 1) ⟨some a.1, some a.2⟩ h2]
    rw [show k + 1 + zs1.length = k + (zs1.length + 1) from by omega]
    rw [applyLoop_env_irrel abortc amOk zs2 (k + (zs1.length + 1)) ⟨some a.1, some a.2⟩ env ins]
    simp [fullTrace]

theorem applyLoop_mem (abortc : Bool) (amOk : Nat → Bool)
    (zs : List (Str × Str × Str)) (k : Nat) (env0 : CommitterEnv) (ins : List Str)
    (j : Nat) (env : CommitterEnv)
    (hmem : (j, env) ∈ (applyLoop abortc amOk zs k env0 ins).1) :
    ∃ z, k ≤ j ∧ zs.get? (j - k) = some z ∧ env = ⟨some z.2.1, some z.2.2⟩ := by
  induction zs generalizing k env0 ins with
  | nil => simp [applyLoop] at hmem
  | cons z zs ih =>
    obtain ⟨p, a⟩ := z
    simp only [applyLoop] at hmem
    have hcons : ∀ ins2 : List Str,
        (j, env) ∈ (k, (⟨some a.1, some a.2⟩ : CommitterEnv)) ::
          (applyLoop abortc amOk zs (k + 1) ⟨some a.1, some a.2⟩ ins2).1 →
        ∃ z, k ≤ j ∧ ((p, a) :: zs).get? (j - k) = some z ∧
          env = ⟨some z.2.1, some z.2.2⟩ := by
      intro ins2 hm
      rcases List.mem_cons.mp hm with heq | htail
      · injection heq with h1 h2
        subst h1
        refine ⟨(p, a), Nat.le_refl _, ?_, h2⟩
        simp
      · obtain ⟨z, hle, hget, henv⟩ := ih (k + 1) ⟨some a.1, some a.2⟩ ins2 htail
        refine ⟨z, by omega, ?_, henv⟩
        rw [show j - k = (j - (k + 1)) + 1 from by omega]
        simpa using hget
    by_cases hk : amOk k = true
    · simp only [hk, if_true] at hmem
      exact hcons ins hmem
    · rw [Bool.not_eq_true] at hk
      simp only [hk, Bool.false_eq_true, if_false] at hmem
      by_cases habort : abortc = true
      · simp only [habort, if_true] at hmem
        simp only [List.mem_singleton] at hmem
        injection hmem with h1 h2
        subst h1
        refine ⟨(p, a), Nat.le_refl _, ?_, h2⟩
        simp
      · rw [if_neg habort] at hmem
        cases hpl : promptLoop ins with
        | none =>
          simp only [hpl, List.mem_singleton] at hmem
          injection hmem with h1 h2
          subst h1
          refine ⟨(p, a), Nat.le_refl _, ?_, h2⟩
          simp
        | some br =>
          obtain ⟨b, rest2⟩ := br
          cases b with
          | false =>
            simp only [hpl, List.mem_singleton] at hmem
            injection hmem with h1 h2
            subst h1
            refine ⟨(p, a), Nat.le_refl _, ?_, h2⟩
            simp
          | true =>
            simp only [hpl] at hmem
            exact hcons rest2 hmem


theorem applyLoop_abort_inputs (amOk : Nat → Bool) (zs : List (Str × Str × Str))
    (k : Nat) (env : CommitterEnv) (ins : List Str) :
    (applyLoop true amOk zs k env ins).2.1 = ins := by
  induction zs generalizing k env with
  | nil => rfl
  | cons z zs ih =>
    obtain ⟨p, a⟩ := z
    simp only [applyLoop]
    by_cases hk : amOk k = true
    · rw [if_pos hk]
      exact ih (k + 1) _
    · rw [Bool.not_eq_true] at hk
      simp [hk]

theorem promptLoop_some_valid (ins : List Str) (d : Bool) (rest : List Str)
    (h : promptLoop ins = some (d, rest)) : ∃ s ∈ ins, isValidInput s := by
  induction ins with
  | nil => simp [promptLoop] at h
  | cons s ins ih =>
    unfold promptLoop at h
    by_cases ha : isAbortInput s
    · exact ⟨s, List.mem_cons_self _ _, Or.inl ha⟩
    · rw [if_neg ha] at h
      by_cases hc : isContinueInput s
      · exact ⟨s, List.mem_cons_self _ _, Or.inr hc⟩
      · rw [if_neg hc] at h
        obtain ⟨t, ht, hv⟩ := ih h
        exact ⟨t, List.mem_cons_of_mem _ ht, hv⟩

/-- C1: once the patch loop has completed (every patch applied cleanly or
manually continued past), a `final-commit` equal to `ignore` makes the run
succeed unconditionally; otherwise the run succeeds exactly when the stripped
`git rev-parse HEAD` output equals `final-commit`, and on mismatch it fails
with the hash-mismatch error whose message contains both hashes. -/
theorem C1_final_hash_verification (amOk : Nat → Bool) (inputs : List Str)
    (headRaw finalCommit : Str) (patchlist : List Str) (authors : List (Str × Str))
    (abortc : Bool)
    (hlen : patchlist.length = authors.length)
    (hloop : (applyLoop abortc amOk (patchlist.zip authors) 0 ⟨none, none⟩ inputs).2.2 =
      .completed) :
    (finalCommit = strLit "ignore" →
      (applyPatches true amOk inputs headRaw finalCommit patchlist authors abortc).2 =
        .success) ∧
    (finalCommit ≠ strLit "ignore" →
      ((applyPatches true amOk inputs headRaw finalCommit patchlist authors abortc).2 =
          .success ↔ stripStr headRaw = finalCommit)) ∧
    (finalCommit ≠ strLit "ignore" → stripStr headRaw ≠ finalCommit →
      (applyPatches true amOk inputs headRaw finalCommit patchlist authors abortc).2 =
        .hashMismatch (stripStr headRaw) finalCommit ∧
      stripStr headRaw <:+: resultMsg
        (applyPatches true amOk inputs headRaw finalCommit patchlist authors abortc).2 ∧
      finalCommit <:+: resultMsg
        (applyPatches true amOk inputs headRaw finalCommit patchlist authors abortc).2) := by
  have happ : (applyPatches true amOk inputs headRaw finalCommit patchlist authors abortc).2 =
      (if finalCommit = strLit "ignore" then .success
       else if stripStr headRaw = finalCommit then .success
       else .hashMismatch (stripStr headRaw) finalCommit) := by
    unfold applyPatches
    rw [if_neg (by simp [hlen]), if_neg (by simp)]
    simp only [hloop]
  refine ⟨?_, ?_, ?_⟩
  · intro h
    rw [happ, if_pos h]
  · intro h
    rw [happ, if_neg h]
    by_cases hs : stripStr headRaw = finalCommit
    · simp [hs]
    · simp [hs]
  · intro h hs
    rw [happ, if_neg h, if_neg hs]
    refine ⟨rfl, ?_, ?_⟩
    · exact ⟨strLit "Resulting commit hash '",
        strLit "' differs from the expected hash '" ++ finalCommit ++ strLit "'",
        by simp [resultMsg]⟩
    · exact ⟨strLit "Resulting commit hash '" ++ stripStr headRaw ++
        strLit "' differs from the expected hash '", strLit "'", by simp [resultMsg]⟩

theorem C1_witness :
    (applyPatches true (fun _ => true) [] (strLit " h1 ") (strLit "h2")
      [strLit "a.patch"] [(strLit "N", strLit "E")] false).2 =
      .hashMismatch (strLit "h1") (strLit "h2") := by
  have h := (C1_final_hash_verification (fun _ => true) [] (strLit " h1 ") (strLit "h2")
    [strLit "a.patch"] [(strLit "N", strLit "E")] false rfl rfl).2.2 (by decide) (by decide)
  exact h.1.trans (by rfl)

/-- C5: every external apply invocation recorded by the loop carries, in its
committer environment, exactly the author name and email of the patch at that
invocation's own index — regardless of the initial environment and of earlier
iterations, since both variables are re-assigned on every iteration. -/
theorem C5_committer_identity (abortc : Bool) (amOk : Nat → Bool)
    (patchlist : List Str) (authors : List (Str × Str)) (env0 : CommitterEnv)
    (ins : List Str) (j : Nat) (env : CommitterEnv)
    (hmem : (j, env) ∈ (applyLoop abortc amOk (patchlist.zip authors) 0 env0 ins).1) :
    ∃ nm em, authors.get? j = some (nm, em) ∧ env = ⟨some nm, some em⟩ := by
  obtain ⟨z, _, hget, henv⟩ := applyLoop_mem abortc amOk _ 0 env0 ins j env hmem
  rw [Nat.sub_zero] at hget
  have hz := (List.get?_zip_eq_some _ _ _ _).mp hget
  exact ⟨z.2.1, z.2.2, by rw [hz.2], henv⟩

theorem C5_witness :
    ∃ nm em, ([(strLit "N", strLit "E")] : List (Str × Str)).get? 0 = some (nm, em) ∧
      (⟨some (strLit "N"), some (strLit "E")⟩ : CommitterEnv) = ⟨some nm, some em⟩ :=
  C5_committer_identity false (fun _ => true) [strLit "a.patch"] [(strLit "N", strLit "E")]
    ⟨none, none⟩ [] 0 ⟨some (strLit "N"), some (strLit "E")⟩ (by decide)

/-- C8: at the conflict prompt, exactly the abort answers (`A`/`a`) and the
continue answers (`C`/`c`) are accepted: a continue answer exits the prompt
to proceed, an abort answer ends it with the abort decision, any other input
re-prompts (the loop is unchanged, no retry is consumed), the loop can only
produce a decision when some valid input is present, the two answer classes
are disjoint, and under the abort-on-conflict policy the input stream is
never consumed at all. -/
theorem C8_prompt_loop :
    (∀ s rest, ¬ isValidInput s → promptLoop (s :: rest) = promptLoop rest) ∧
    (∀ s rest, isContinueInput s → promptLoop (s :: rest) = some (true, rest)) ∧
    (∀ s rest, isAbortInput s → promptLoop (s :: rest) = some (false, rest)) ∧
    (∀ ins d rest, promptLoop ins = some (d, rest) → ∃ s ∈ ins, isValidInput s) ∧
    (∀ s, ¬ (isContinueInput s ∧ isAbortInput s)) ∧
    (∀ amOk zs k env ins, (applyLoop true amOk zs k env ins).2.1 = ins) := by
  refine ⟨?_, ?_, ?_, ?_, ?_, ?_⟩
  · intro s rest h
    have ha : ¬ isAbortInput s := fun x => h (Or.inl x)
    have hc : ¬ isContinueInput s := fun x => h (Or.inr x)
    unfold promptLoop
    rw [if_neg ha, if_neg hc]
    cases rest <;> rfl
  · intro s rest h
    have ha : ¬ isAbortInput s := by
      rcases h with rfl | rfl <;> decide
    unfold promptLoop
    rw [if_neg ha, if_pos h]
  · intro s rest h
    unfold promptLoop
    rw [if_pos h]
  · exact promptLoop_some_valid
  · rintro s ⟨hc, ha⟩
    rcases hc with rfl | rfl <;> rcases ha with h | h <;> exact absurd h (by decide)
  · exact applyLoop_abort_inputs

theorem C8_witness :
    promptLoop [strLit "continue", strLit "C"] = promptLoop [strLit "C"] :=
  C8_prompt_loop.1 (strLit "continue") [strLit "C"] (by decide)


theorem range'_glue (i m n : Nat) (h : i + m + 1 = n) :
    List.range' 0 i ++ i :: List.range' (i + 1) m = List.range n := by
  subst h
  rw [List.range_eq_range']
  rw [show i :: List.range' (i + 1) m = List.range' i (m + 1) from (List.range'_succ i m 1).symm]
  have h2 := List.range'_append 0 i (m + 1) 1
  simp only [Nat.one_mul, Nat.zero_add] at h2
  rw [h2]
  congr 1
  omega

/-- C4: with every patch but `i` applying cleanly and patch `i` failing:
under abort-on-conflict the loop stops at `i` (invocations are exactly
`0..i`) identifying patch `i`; under the permissive policy a continue answer
goes on to patch `i+1` and the rest (invocations are `0..n-1`, outcome
completed), while an abort answer stops at `i` with the user-abort outcome. -/
theorem C4_conflict_policy (amOk : Nat → Bool) (patchlist : List Str)
    (authors : List (Str × Str)) (i : Nat)
    (hlen : patchlist.length = authors.length)
    (hi : i < patchlist.length)
    (hfail : amOk i = false)
    (hok : ∀ j, j < patchlist.length → j ≠ i → amOk j = true) :
    (∀ ins : List Str,
      ((applyLoop true amOk (patchlist.zip authors) 0 ⟨none, none⟩ ins).1.map Prod.fst =
        List.range (i + 1)) ∧
      (applyLoop true amOk (patchlist.zip authors) 0 ⟨none, none⟩ ins).2.2 =
        .conflictAbort patchlist[i]) ∧
    (((applyLoop false amOk (patchlist.zip authors) 0 ⟨none, none⟩ [strLit "C"]).1.map
        Prod.fst = List.range patchlist.length) ∧
      (applyLoop false amOk (patchlist.zip authors) 0 ⟨none, none⟩ [strLit "C"]).2.2 =
        .completed) ∧
    (((applyLoop false amOk (patchlist.zip authors) 0 ⟨none, none⟩ [strLit "A"]).1.map
        Prod.fst = List.range (i + 1)) ∧
      (applyLoop false amOk (patchlist.zip authors) 0 ⟨none, none⟩ [strLit "A"]).2.2 =
        .userAborted) := by
  have hzlen : (patchlist.zip authors).length = patchlist.length := by
    simp [List.length_zip, hlen]
  have hzi : i < (patchlist.zip authors).length := by omega
  have hdec : patchlist.zip authors =
      (patchlist.zip authors).take i ++
        (patchlist.zip authors)[i] :: (patchlist.zip authors).drop (i + 1) := by
    conv_lhs => rw [← List.take_append_drop i (patchlist.zip authors)]
    congr 1
    exact List.drop_eq_getElem_cons hzi
  have htl : ((patchlist.zip authors).take i).length = i := by
    rw [List.length_take, Nat.min_eq_left (Nat.le_of_lt hzi)]
  have hokt : ∀ j, j < ((patchlist.zip authors).take i).length → amOk (0 + j) = true := by
    intro j hj
    rw [htl] at hj
    simpa using hok j (by omega) (by omega)
  have hrun : ∀ (b : Bool) (ins : List Str),
      applyLoop b amOk (patchlist.zip authors) 0 ⟨none, none⟩ ins =
        (fullTrace 0 ((patchlist.zip authors).take i) ++
          (applyLoop b amOk
            ((patchlist.zip authors)[i] :: (patchlist.zip authors).drop (i + 1))
            i ⟨none, none⟩ ins).1,
         (applyLoop b amOk
            ((patchlist.zip authors)[i] :: (patchlist.zip authors).drop (i + 1))
            i ⟨none, none⟩ ins).2) := by
    intro b ins
    conv_lhs => rw [hdec]
    have h2 := applyLoop_append_ok b amOk ((patchlist.zip authors).take i)
      ((patchlist.zip authors)[i] :: (patchlist.zip authors).drop (i + 1)) 0
      ⟨none, none⟩ ins hokt
    rw [h2, htl]
    simp
  have hrest : ∀ j, j < ((patchlist.zip authors).drop (i + 1)).length →
      amOk (i + 1 + j) = true := by
    intro j hj
    rw [List.length_drop] at hj
    exact hok (i + 1 + j) (by omega) (by omega)
  have hstep_abort : ∀ ins : List Str,
      applyLoop true amOk
        ((patchlist.zip authors)[i] :: (patchlist.zip authors).drop (i + 1))
        i ⟨none, none⟩ ins =
      ([(i, ⟨some (patchlist.zip authors)[i].2.1, some (patchlist.zip authors)[i].2.2⟩)],
        ins, .conflictAbort (patchlist.zip authors)[i].1) := by
    intro ins
    simp only [applyLoop]
    rw [if_neg (by simp [hfail]), if_pos trivial]
    rfl
  have hstep_user :
      applyLoop false amOk
        ((patchlist.zip authors)[i] :: (patchlist.zip authors).drop (i + 1))
        i ⟨none, none⟩ [strLit "A"] =
      ([(i, ⟨some (patchlist.zip authors)[i].2.1, some (patchlist.zip authors)[i].2.2⟩)],
        [], .userAborted) := by
    simp only [applyLoop]
    rw [if_neg (by simp [hfail]), if_neg (by simp)]
    simp only [show promptLoop [strLit "A"] = some (false, []) from by decide]
    rfl
  have hstep_cont :
      applyLoop false amOk
        ((patchlist.zip authors)[i] :: (patchlist.zip authors).drop (i + 1))
        i ⟨none, none⟩ [strLit "C"] =
      ((i, ⟨some (patchlist.zip authors)[i].2.1, some (patchlist.zip authors)[i].2.2⟩) ::
        fullTrace (i + 1) ((patchlist.zip authors).drop (i + 1)), [], .completed) := by
    simp only [applyLoop]
    rw [if_neg (by simp [hfail]), if_neg (by simp)]
    simp only [show promptLoop [strLit "C"] = some (true, []) from by decide]
    simp only [List.get_eq_getElem]
    rw [applyLoop_all_ok false amOk ((patchlist.zip authors).drop (i + 1)) (i + 1)
      ⟨some (patchlist.zip authors)[i].2.1, some (patchlist.zip authors)[i].2.2⟩ [] hrest]
  refine ⟨?_, ⟨?_, ?_⟩, ⟨?_, ?_⟩⟩
  · intro ins
    rw [hrun true ins, hstep_abort ins]
    constructor
    · simp [fullTrace_map_fst, htl, List.range_succ, List.range_eq_range']
    · simp [List.getElem_zip]
  · rw [hrun false [strLit "C"], hstep_cont]
    simp only [List.map_append, List.map_cons, fullTrace_map_fst, htl, List.length_drop, hzlen]
    exact range'_glue i (patchlist.length - (i + 1)) patchlist.length (by omega)
  · rw [hrun false [strLit "C"], hstep_cont]
  · rw [hrun false [strLit "A"], hstep_user]
    simp [fullTrace_map_fst, htl, List.range_succ, List.range_eq_range']
  · rw [hrun false [strLit "A"], hstep_user]

theorem C4_witness :
    (∀ ins : List Str,
      ((applyLoop true (fun j => decide (j ≠ 1))
        ([strLit "a.patch", strLit "b.patch", strLit "c.patch"].zip
          [(strLit "N1", strLit "E1"), (strLit "N2", strLit "E2"), (strLit "N3", strLit "E3")])
        0 ⟨none, none⟩ ins).1.map Prod.fst = List.range 2) ∧
      (applyLoop true (fun j => decide (j ≠ 1))
        ([strLit "a.patch", strLit "b.patch", strLit "c.patch"].zip
          [(strLit "N1", strLit "E1"), (strLit "N2", strLit "E2"), (strLit "N3", strLit "E3")])
        0 ⟨none, none⟩ ins).2.2 =
        .conflictAbort ([strLit "a.patch", strLit "b.patch", strLit "c.patch"][1])) ∧
    (((applyLoop false (fun j => decide (j ≠ 1))
        ([strLit "a.patch", strLit "b.patch", strLit "c.patch"].zip
          [(strLit "N1", strLit "E1"), (strLit "N2", strLit "E2"), (strLit "N3", strLit "E3")])
        0 ⟨none, none⟩ [strLit "C"]).1.map Prod.fst = List.range 3) ∧
      (applyLoop false (fun j => decide (j ≠ 1))
        ([strLit "a.patch", strLit "b.patch", strLit "c.patch"].zip
          [(strLit "N1", strLit "E1"), (strLit "N2", strLit "E2"), (strLit "N3", strLit "E3")])
        0 ⟨none, none⟩ [strLit "C"]).2.2 = .completed) ∧
    (((applyLoop false (fun j => decide (j ≠ 1))
        ([strLit "a.patch", strLit "b.patch", strLit "c.patch"].zip
          [(strLit "N1", strLit "E1"), (strLit "N2", strLit "E2"), (strLit "N3", strLit "E3")])
        0 ⟨none, none⟩ [strLit "A"]).1.map Prod.fst = List.range 2) ∧
      (applyLoop false (fun j => decide (j ≠ 1))
        ([strLit "a.patch", strLit "b.patch", strLit "c.patch"].zip
          [(strLit "N1", strLit "E1"), (strLit "N2", strLit "E2"), (strLit "N3", strLit "E3")])
        0 ⟨none, none⟩ [strLit "A"]).2.2 = .userAborted) :=
  C4_conflict_policy (fun j => decide (j ≠ 1))
    [strLit "a.patch", strLit "b.patch", strLit "c.patch"]
    [(strLit "N1", strLit "E1"), (strLit "N2", strLit "E2"), (strLit "N3", strLit "E3")]
    1 rfl (by decide) (by decide) (by decide)

end Spm
